import Mathlib

/-!
# Verification of the (μ, λ) evolution-strategy engine (`final/evol_strat.py`)

This file gives a shallow embedding of `evol_strat.py` and proves/refutes the
frozen claims about it.

Modelling conventions:

* Python floats are modelled as elements of an abstract `LinearOrderedField α`
  (instantiated with `ℚ` for concrete witnesses).  `math.exp` and `math.sqrt`
  are external library functions and enter as parameters `exp sqrt : α → α`.
* The pseudo-random generator `random.Random` is modelled as an oracle: three
  independent streams of primitive draws together with position counters.
  `rng.uniform lo hi` consumes one standard-uniform draw `u` and returns
  `lo + (hi - lo) * u`; `rng.gauss m s` consumes one standard-normal draw `z`
  and returns `m + s * z`; `random.sample(range(n), 2)` consumes one raw pair
  of naturals and deterministically turns it into two distinct indices `< n`
  (Python raises `ValueError` when `n < 2`, modelled by `none`).
* Fallible Python operations (list indexing, `max` of an empty list,
  `random.sample` with too small a population) are modelled in the `Option`
  monad; `none` corresponds to an uncaught Python exception.
* `print` telemetry is modelled by returning the list of `Telemetry` records
  (the numeric fields of each printed line, in order).
-/

namespace ES

/-- Oracle model of `random.Random`: streams of primitive draws plus
position counters (`u` for uniform draws, `g` for standard-normal draws,
`p` for `random.sample` pair draws). -/
structure RNG (α : Type) where
  unif : ℕ → α
  norm : ℕ → α
  pair : ℕ → ℕ × ℕ
  u : ℕ
  g : ℕ
  p : ℕ

variable {α : Type} [LinearOrderedField α]

/-- `rng.uniform(lo, hi)`: `lo + (hi - lo) * u` for one fresh standard-uniform
draw `u`. -/
def RNG.uniform (r : RNG α) (lo hi : α) : α × RNG α :=
  (lo + (hi - lo) * r.unif r.u, { r with u := r.u + 1 })

/-- `rng.gauss(m, s)`: `m + s * z` for one fresh standard-normal draw `z`. -/
def RNG.gauss (r : RNG α) (m s : α) : α × RNG α :=
  (m + s * r.norm r.g, { r with g := r.g + 1 })

/-- `rng.sample(range(n), 2)`: two distinct indices `< n`, in draw order;
raises (`none`) when `n < 2`.  The raw pair `(a, b)` from the oracle stream is
normalised to `i = a % n` and `j = b % (n-1)` skipped past `i`. -/
def RNG.sample2 (r : RNG α) (n : ℕ) : Option ((ℕ × ℕ) × RNG α) :=
  if n < 2 then none
  else
    let ab := r.pair r.p
    let i := ab.1 % n
    let j0 := ab.2 % (n - 1)
    let j := if j0 < i then j0 else j0 + 1
    some ((i, j), { r with p := r.p + 1 })

/-- The gene-initialisation loop of `init_population`: `mem_size` uniform
draws from `[lo, hi]`, in order. -/
def initGenes (lo hi : α) : ℕ → RNG α → List α × RNG α
  | 0, r => ([], r)
  | n + 1, r =>
    let gr := r.uniform lo hi
    let rest := initGenes lo hi n gr.2
    (gr.1 :: rest.1, rest.2)

/-- `init_population(pop_size, mem_size, mem_range, sigma, rng)`: each member
is `mem_size` uniform genes followed by the shared initial `sigma`. -/
def init_population (popSize memSize : ℕ) (lo hi sigma : α) (r : RNG α) :
    List (List α) × RNG α :=
  match popSize with
  | 0 => ([], r)
  | n + 1 =>
    let m := initGenes lo hi memSize r
    let rest := init_population n memSize lo hi sigma m.2
    ((m.1 ++ [sigma]) :: rest.1, rest.2)

/-- Tournament parent selection:
`candidates = rng.sample(range(mu), 2); max(candidates, key=fitnesses[i])`.
Python's `max` keeps the first element on an exact tie, so the winner is
`c1` exactly when `fitnesses[c1] > fitnesses[c0]`. -/
def tournamentSelect (fitnesses : List α) (mu : ℕ) (r : RNG α) :
    Option (ℕ × RNG α) := do
  let sr ← r.sample2 mu
  let c0 := sr.1.1
  let c1 := sr.1.2
  let f0 ← fitnesses.get? c0
  let f1 ← fitnesses.get? c1
  some (if f1 > f0 then c1 else c0, sr.2)

/-- The gene-mutation loop: each gene receives `rng.gauss(0, sigma_val)`,
consumed left to right. -/
def mutateGenes (sigmaVal : α) : List α → RNG α → List α × RNG α
  | [], r => ([], r)
  | g :: gs, r =>
    let mr := r.gauss 0 sigmaVal
    let rest := mutateGenes sigmaVal gs mr.2
    ((g + mr.1) :: rest.1, rest.2)

/-- Production of one offspring: tournament selection, per-gene Gaussian
mutation with the parent's sigma, then one fresh standard-normal draw for the
log-normal sigma update `new_sigma = sigma_val * exp(tau * z)`. -/
def makeChild (fitnesses : List α) (population : List (List α))
    (memSize mu : ℕ) (tau : α) (exp : α → α) (r : RNG α) :
    Option (List α × RNG α) := do
  let pr ← tournamentSelect fitnesses mu r
  let parent ← population.get? pr.1
  let genes := parent.take memSize
  let sigmaVal ← parent.get? memSize
  let mg := mutateGenes sigmaVal genes pr.2
  let zr := mg.2.gauss 0 1
  let newSigma := sigmaVal * exp (tau * zr.1)
  some (mg.1 ++ [newSigma], zr.2)

/-- The offspring loop: `lambda_` children, produced in order. -/
def makeOffspring (fitnesses : List α) (population : List (List α))
    (memSize mu : ℕ) (tau : α) (exp : α → α) :
    ℕ → RNG α → Option (List (List α) × RNG α)
  | 0, r => some ([], r)
  | n + 1, r => do
    let cr ← makeChild fitnesses population memSize mu tau exp r
    let rest ← makeOffspring fitnesses population memSize mu tau exp n cr.2
    some (cr.1 :: rest.1, rest.2)

/-- Python's `max` over a nonempty list: start from the head, replace the
current value only on a strictly greater element.  `none` on `[]`
(`ValueError`). -/
def listMaxPy : List α → Option α
  | [] => none
  | x :: xs => some (xs.foldl (fun m y => if y > m then y else m) x)

/-- `[(f, i) for i, f in enumerate(fits)]`, with indices starting at `i0`. -/
def indexList : List α → ℕ → List (α × ℕ)
  | [], _ => []
  | f :: fs, i0 => (f, i0) :: indexList fs (i0 + 1)

/-- Insertion step of the stable descending sort: `x` is placed before the
first element whose key is not strictly greater than `x`'s.  Since `x`
originates earlier in the input list than every element of the tail, this is
exactly the tie-behaviour of Python's stable `list.sort(reverse=True)`. -/
def insertDesc (x : α × ℕ) : List (α × ℕ) → List (α × ℕ)
  | [] => [x]
  | y :: ys => if y.1 > x.1 then y :: insertDesc x ys else x :: y :: ys

/-- Stable sort by fitness descending, modelling
`indexed.sort(key=lambda x: x[0], reverse=True)`. -/
def sortDesc : List (α × ℕ) → List (α × ℕ)
  | [] => []
  | x :: xs => insertDesc x (sortDesc xs)

/-- Truncation selection: sort `(fitness, index)` pairs by fitness descending
(stable), keep the first `mu` indices. -/
def truncationSelect (offspringFitnesses : List α) (mu : ℕ) : List ℕ :=
  (((sortDesc (indexList offspringFitnesses 0)).take mu).map (fun x => x.2))

/-- `new_population = [offspring[idx] for idx in selected_indices]`;
indexing is fallible in Python. -/
def selectPop (offspring : List (List α)) (idxs : List ℕ) :
    Option (List (List α)) :=
  idxs.mapM offspring.get?

/-- `sum((population[i][k] - population[j][k])**2 for k in range(mem_size))`;
`none` models an `IndexError` when a member is shorter than `mem_size`. -/
def distSq (x y : List α) : ℕ → Option α
  | 0 => some 0
  | k + 1 => do
    let s ← distSq x y k
    let xk ← x.get? k
    let yk ← y.get? k
    some (s + (xk - yk) ^ 2)

/-- The index pairs `(i, j)` with `i < j < mu`, in the visit order of the
diversity double loop. -/
def diversityPairs (mu : ℕ) : List (ℕ × ℕ) :=
  (List.range mu).flatMap
    (fun i => ((List.range mu).filter (fun j => i < j)).map (fun j => (i, j)))

/-- The diversity accumulation loop: running maximum (starting from `0.0`) of
`sqrt` of the pairwise squared gene distances. -/
def diversityLoop (sqrt : α → α) (population : List (List α)) (memSize : ℕ) :
    List (ℕ × ℕ) → α → Option α
  | [], d => some d
  | ij :: rest, d => do
    let xi ← population.get? ij.1
    let xj ← population.get? ij.2
    let s ← distSq xi xj memSize
    let dist := sqrt s
    diversityLoop sqrt population memSize rest (if dist > d then dist else d)

/-- The numeric fields of one printed telemetry line
`"Himmelblau ES {mu} {lambda_} {tau} 0.0 {generation_number}
{cumulative_evals} {max_fitness} {average} {diversity}"`. -/
structure Telemetry (α : Type) where
  mu : ℕ
  lam : ℕ
  tau : α
  gen : ℕ
  evals : ℕ
  maxFit : α
  avg : α
  diversity : α
  deriving Repr

/-- One iteration of the generational loop.  Returns the population to carry
on with, a `Bool` that is `true` exactly when the `average > 0.99` early-stop
`break` fires (in which case the returned population is the unchanged parent
population), the telemetry record, the updated evaluation count and RNG. -/
def esStep (fitness : List α → α) (mu lam memSize : ℕ) (tau : α)
    (exp sqrt : α → α) (genNumber : ℕ) (population : List (List α))
    (evals : ℕ) (r : RNG α) :
    Option ((List (List α) × Bool) × Telemetry α × ℕ × RNG α) := do
  let fitnesses := population.map (fun m => fitness (m.take memSize))
  let evals1 := evals + mu
  let og ← makeOffspring fitnesses population memSize mu tau exp lam r
  let offspringFitnesses := og.1.map (fun m => fitness (m.take memSize))
  let evals2 := evals1 + lam
  let maxFitness ← listMaxPy fitnesses
  let average := fitnesses.sum / (mu : α)
  let diversity ← diversityLoop sqrt population memSize (diversityPairs mu) 0
  let t : Telemetry α :=
    ⟨mu, lam, tau, genNumber, evals2, maxFitness, average, diversity⟩
  if average > 99 / 100 then
    some ((population, true), t, evals2, og.2)
  else
    let newPopulation ← selectPop og.1 (truncationSelect offspringFitnesses mu)
    some ((newPopulation, false), t, evals2, og.2)

/-- The `for generation_number in range(1, max_gens + 1)` loop, with the
remaining number of generations as fuel and the telemetry lines collected in
emission order. -/
def esLoop (fitness : List α → α) (mu lam memSize : ℕ) (tau : α)
    (exp sqrt : α → α) :
    ℕ → ℕ → List (List α) → ℕ → RNG α →
    Option (List (List α) × List (Telemetry α) × ℕ × RNG α)
  | 0, _, population, evals, r => some (population, [], evals, r)
  | n + 1, genNumber, population, evals, r => do
    let s ← esStep fitness mu lam memSize tau exp sqrt genNumber population
      evals r
    if s.1.2 then
      some (s.1.1, [s.2.1], s.2.2.1, s.2.2.2)
    else
      let rest ← esLoop fitness mu lam memSize tau exp sqrt n (genNumber + 1)
        s.1.1 s.2.2.1 s.2.2.2
      some (rest.1, s.2.1 :: rest.2.1, rest.2.2)

/-- `evolution_strategy(...)`: initialise the population, run the loop.  The
Python function returns only the population component; the telemetry list,
the final evaluation count and the final RNG state are the observable side
effects, returned here explicitly. -/
def evolution_strategy (fitness : List α → α) (mu lam memSize : ℕ)
    (lo hi sigma tau : α) (maxGens : ℕ) (exp sqrt : α → α) (r : RNG α) :
    Option (List (List α) × List (Telemetry α) × ℕ × RNG α) :=
  let ip := init_population mu memSize lo hi sigma r
  esLoop fitness mu lam memSize tau exp sqrt maxGens 1 ip.1 0 ip.2

end ES

namespace ES

variable {α : Type} [LinearOrderedField α]

/-! ## Basic facts about the RNG primitives and mutation -/

theorem sample2_eq_some {r r' : RNG α} {n i j : ℕ}
    (h : r.sample2 n = some ((i, j), r')) :
    2 ≤ n ∧ i ≠ j ∧ i < n ∧ j < n ∧ r' = { r with p := r.p + 1 } := by
  unfold RNG.sample2 at h
  by_cases hn : n < 2
  · simp [hn] at h
  · simp only [if_neg hn] at h
    obtain ⟨⟨hi, hj⟩, hr⟩ := by
      simpa using h
    subst hi
    constructor
    · omega
    refine ⟨?_, ?_, ?_, hr.symm⟩
    · by_cases hc : (r.pair r.p).2 % (n - 1) < (r.pair r.p).1 % n <;>
        simp [hc] at hj <;> omega
    · exact Nat.mod_lt _ (by omega)
    · have h1 : (r.pair r.p).2 % (n - 1) < n - 1 := Nat.mod_lt _ (by omega)
      by_cases hc : (r.pair r.p).2 % (n - 1) < (r.pair r.p).1 % n <;>
        simp [hc] at hj <;> omega

theorem mutateGenes_fst_length (s : α) (gs : List α) (r : RNG α) :
    (mutateGenes s gs r).1.length = gs.length := by
  induction gs generalizing r with
  | nil => rfl
  | cons g gs ih => simp [mutateGenes, ih]

theorem mutateGenes_snd (s : α) (gs : List α) (r : RNG α) :
    (mutateGenes s gs r).2 = { r with g := r.g + gs.length } := by
  induction gs generalizing r with
  | nil => simp [mutateGenes]
  | cons g gs ih =>
    have harith : r.g + 1 + gs.length = r.g + (gs.length + 1) := by omega
    simp [mutateGenes, RNG.gauss, ih, harith]

theorem mutateGenes_get? (s : α) (gs : List α) (r : RNG α) (k : ℕ) :
    (mutateGenes s gs r).1[k]? =
      (gs[k]?).map (fun gk => gk + s * r.norm (r.g + k)) := by
  induction gs generalizing r k with
  | nil => simp [mutateGenes]
  | cons g gs ih =>
    cases k with
    | zero => simp [mutateGenes, RNG.gauss]
    | succ k =>
      have harith : r.g + 1 + k = r.g + (k + 1) := by omega
      simp [mutateGenes, RNG.gauss, ih, harith]

/-- Full characterisation of a successful tournament selection. -/
theorem tournamentSelect_char {fits : List α} {mu : ℕ} {r r1 : RNG α} {w : ℕ}
    (h : tournamentSelect fits mu r = some (w, r1)) :
    ∃ c0 c1 f0 f1,
      r.sample2 mu = some ((c0, c1), { r with p := r.p + 1 }) ∧
      c0 ≠ c1 ∧ c0 < mu ∧ c1 < mu ∧ 2 ≤ mu ∧
      fits[c0]? = some f0 ∧ fits[c1]? = some f1 ∧
      w = (if f0 < f1 then c1 else c0) ∧ r1 = { r with p := r.p + 1 } := by
  unfold tournamentSelect at h
  simp only [Option.bind_eq_bind, Option.bind_eq_some, List.get?_eq_getElem?,
    Option.some.injEq, Prod.mk.injEq] at h
  obtain ⟨⟨⟨c0, c1⟩, r1'⟩, hs, f0, h0, f1, h1, hw, hr⟩ := h
  obtain ⟨h2, hne, hlt0, hlt1, hr1'⟩ := sample2_eq_some hs
  subst hr1'
  exact ⟨c0, c1, f0, f1, hs, hne, hlt0, hlt1, h2, h0, h1, hw.symm, hr.symm⟩

end ES

namespace ES

variable {α : Type} [LinearOrderedField α]

/-- Full characterisation of a successful offspring production. -/
theorem makeChild_eq_some {fits : List α} {pop : List (List α)}
    {memSize mu : ℕ} {tau : α} {exp : α → α} {r : RNG α} {child : List α}
    {r' : RNG α} (h : makeChild fits pop memSize mu tau exp r =
      some (child, r')) :
    ∃ pIdx r1 parent sigmaVal,
      tournamentSelect fits mu r = some (pIdx, r1) ∧
      pop[pIdx]? = some parent ∧
      parent[memSize]? = some sigmaVal ∧
      memSize < parent.length ∧
      child = (mutateGenes sigmaVal (parent.take memSize) r1).1 ++
        [sigmaVal * exp (tau * r1.norm (r1.g + memSize))] ∧
      r' = { r1 with g := r1.g + memSize + 1 } := by
  unfold makeChild at h
  simp only [Option.bind_eq_bind, Option.bind_eq_some, List.get?_eq_getElem?,
    Option.some.injEq, Prod.mk.injEq] at h
  obtain ⟨⟨pIdx, r1⟩, hts, parent, hp, sigmaVal, hsv, hc, hr⟩ := h
  have hplen : memSize < parent.length := (List.getElem?_eq_some.mp hsv).1
  have hglen : (parent.take memSize).length = memSize := by
    simp [List.length_take, Nat.min_eq_left (Nat.le_of_lt hplen)]
  have hsnd := mutateGenes_snd sigmaVal (parent.take memSize) r1
  refine ⟨pIdx, r1, parent, sigmaVal, hts, hp, hsv, hplen, ?_, ?_⟩
  · rw [← hc]
    simp [RNG.gauss, hsnd, hglen]
  · rw [← hr]
    simp [RNG.gauss, hsnd, hglen]

/-- C1.  Every offspring produced by the engine consists of the selected
parent's genes, each perturbed by an independent fresh standard-normal draw
scaled by the parent's own sigma (draws consumed in gene order), followed by
the mutated sigma `parent_sigma * exp(tau * z)`, where `z` is the single
fresh standard-normal draw made after all of the child's gene draws and
shared across the child's genes (positions `r.g + k` for gene `k`, position
`r.g + memSize` for `z`; exactly `memSize + 1` normal draws are consumed). -/
theorem claim1_mutation_gaussian_and_lognormal_sigma
    (fits : List α) (pop : List (List α)) (memSize mu : ℕ) (tau : α)
    (exp : α → α) (r : RNG α) (child : List α) (r' : RNG α)
    (h : makeChild fits pop memSize mu tau exp r = some (child, r')) :
    ∃ pIdx parent sigmaVal,
      tournamentSelect fits mu r = some (pIdx, { r with p := r.p + 1 }) ∧
      pop[pIdx]? = some parent ∧
      parent[memSize]? = some sigmaVal ∧
      child.length = memSize + 1 ∧
      (∀ k, k < memSize →
        child[k]? = (parent[k]?).map
          (fun gk => gk + sigmaVal * r.norm (r.g + k))) ∧
      child[memSize]? = some (sigmaVal * exp (tau * r.norm (r.g + memSize))) ∧
      r'.norm = r.norm ∧ r'.g = r.g + memSize + 1 := by
  obtain ⟨pIdx, r1, parent, sigmaVal, hts, hp, hsv, hplen, hc, hr⟩ :=
    makeChild_eq_some h
  obtain ⟨c0, c1, f0, f1, _, _, _, _, _, _, _, _, hr1⟩ :=
    tournamentSelect_char hts
  subst hr1
  have hglen : (parent.take memSize).length = memSize := by
    simp [List.length_take, Nat.min_eq_left (Nat.le_of_lt hplen)]
  have hmglen :
      (mutateGenes sigmaVal (parent.take memSize)
        { r with p := r.p + 1 }).1.length = memSize := by
    rw [mutateGenes_fst_length]; exact hglen
  refine ⟨pIdx, parent, sigmaVal, hts, hp, hsv, ?_, ?_, ?_, ?_, ?_⟩
  · rw [hc]; simp [hmglen]
  · intro k hk
    rw [hc, List.getElem?_append_left (by omega : k < _), mutateGenes_get?]
    rw [List.getElem?_take_of_lt hk]
  · rw [hc, List.getElem?_append_right (by omega : _ ≤ memSize)]
    simp [hmglen]
  · rw [hr]
  · rw [hr]

/-- C4.  A successful tournament selection drew exactly two distinct parent
indices below `mu`; the winner is the candidate with the strictly higher
fitness, and on an exact fitness tie the winner is the first of the two
sampled candidates; in every case the winner's fitness is at least both
candidates' fitnesses. -/
theorem claim4_tournament_two_distinct_first_wins_tie
    (fits : List α) (mu : ℕ) (r r1 : RNG α) (w : ℕ)
    (h : tournamentSelect fits mu r = some (w, r1)) :
    ∃ c0 c1 f0 f1,
      r.sample2 mu = some ((c0, c1), r1) ∧
      c0 ≠ c1 ∧ c0 < mu ∧ c1 < mu ∧
      fits[c0]? = some f0 ∧ fits[c1]? = some f1 ∧
      (f0 < f1 → w = c1) ∧ (f1 < f0 → w = c0) ∧ (f0 = f1 → w = c0) ∧
      ∃ fw, fits[w]? = some fw ∧ f0 ≤ fw ∧ f1 ≤ fw := by
  obtain ⟨c0, c1, f0, f1, hs, hne, hlt0, hlt1, _, h0, h1, hw, hr1⟩ :=
    tournamentSelect_char h
  subst hr1
  refine ⟨c0, c1, f0, f1, hs, hne, hlt0, hlt1, h0, h1, ?_, ?_, ?_, ?_⟩
  · intro hlt; rw [hw, if_pos hlt]
  · intro hlt; rw [hw, if_neg (not_lt_of_gt hlt)]
  · intro heq; rw [hw, if_neg (by rw [heq]; exact lt_irrefl f1)]
  · by_cases hcmp : f0 < f1
    · exact ⟨f1, by rw [hw, if_pos hcmp]; exact h1, le_of_lt hcmp, le_refl f1⟩
    · exact ⟨f0, by rw [hw, if_neg hcmp]; exact h0, le_refl f0,
        le_of_not_lt hcmp⟩

end ES

namespace ES

/-- A concrete oracle over `ℚ`: uniform draws `n`, standard-normal draws
`n + 1`, raw sample pairs `(0, 0)`. -/
def natRng : RNG ℚ :=
  ⟨fun n => (n : ℚ), fun n => (n : ℚ) + 1, fun _ => (0, 0), 0, 0, 0⟩

/-- A concrete all-zero oracle over `ℚ`. -/
def zeroRng : RNG ℚ := ⟨fun _ => 0, fun _ => 0, fun _ => (0, 0), 0, 0, 0⟩

/-- Witness for C1 at a concrete input. -/
theorem claim1_witness :
    ∃ pIdx parent sigmaVal,
      tournamentSelect [(0:ℚ), 0] 2 natRng =
        some (pIdx, { natRng with p := natRng.p + 1 }) ∧
      ([[1, 2], [3, 4]] : List (List ℚ))[pIdx]? = some parent ∧
      parent[1]? = some sigmaVal ∧
      ([3, 4] : List ℚ).length = 1 + 1 ∧
      (∀ k, k < 1 → ([3, 4] : List ℚ)[k]? = (parent[k]?).map
        (fun gk => gk + sigmaVal * natRng.norm (natRng.g + k))) ∧
      ([3, 4] : List ℚ)[1]? =
        some (sigmaVal * id (1 * natRng.norm (natRng.g + 1))) ∧
      (⟨natRng.unif, natRng.norm, natRng.pair, 0, 2, 1⟩ : RNG ℚ).norm =
        natRng.norm ∧
      (⟨natRng.unif, natRng.norm, natRng.pair, 0, 2, 1⟩ : RNG ℚ).g =
        natRng.g + 1 + 1 :=
  claim1_mutation_gaussian_and_lognormal_sigma [(0:ℚ), 0] [[1, 2], [3, 4]]
    1 2 1 id natRng [3, 4] ⟨natRng.unif, natRng.norm, natRng.pair, 0, 2, 1⟩
    (by simp [makeChild, tournamentSelect, RNG.sample2, mutateGenes, RNG.gauss,
      natRng]; norm_num)

/-- Witness for C4 at a concrete input. -/
theorem claim4_witness :
    ∃ c0 c1 f0 f1,
      zeroRng.sample2 2 =
        some ((c0, c1), ⟨zeroRng.unif, zeroRng.norm, zeroRng.pair, 0, 0, 1⟩) ∧
      c0 ≠ c1 ∧ c0 < 2 ∧ c1 < 2 ∧
      ([(0:ℚ), 0] : List ℚ)[c0]? = some f0 ∧
      ([(0:ℚ), 0] : List ℚ)[c1]? = some f1 ∧
      (f0 < f1 → 0 = c1) ∧ (f1 < f0 → 0 = c0) ∧ (f0 = f1 → 0 = c0) ∧
      ∃ fw, ([(0:ℚ), 0] : List ℚ)[(0:ℕ)]? = some fw ∧ f0 ≤ fw ∧ f1 ≤ fw :=
  claim4_tournament_two_distinct_first_wins_tie [(0:ℚ), 0] 2 zeroRng
    ⟨zeroRng.unif, zeroRng.norm, zeroRng.pair, 0, 0, 1⟩ 0
    (by simp [tournamentSelect, RNG.sample2, zeroRng])

end ES

namespace ES

variable {α : Type} [LinearOrderedField α]

/-! ## The stable descending sort used by truncation selection -/

/-- The strict "ranks before" order realised by Python's stable
`sort(key=fitness, reverse=True)` on `(fitness, original index)` pairs with
distinct indices: strictly larger fitness first, exact fitness ties broken by
the smaller original index. -/
def ranksBefore (x y : α × ℕ) : Prop :=
  y.1 < x.1 ∨ (x.1 = y.1 ∧ x.2 < y.2)

theorem indexList_length (l : List α) (i0 : ℕ) :
    (indexList l i0).length = l.length := by
  induction l generalizing i0 with
  | nil => rfl
  | cons f fs ih => simp [indexList, ih]

theorem mem_indexList_snd {l : List α} {i0 : ℕ} {p : α × ℕ}
    (h : p ∈ indexList l i0) : i0 ≤ p.2 ∧ p.2 < i0 + l.length := by
  induction l generalizing i0 with
  | nil => simp [indexList] at h
  | cons f fs ih =>
    simp only [indexList, List.mem_cons] at h
    rcases h with h | h
    · subst h; simp
    · have := ih h
      simp only [List.length_cons]
      omega

theorem indexList_pairwise (l : List α) (i0 : ℕ) :
    (indexList l i0).Pairwise (fun a b => a.2 < b.2) := by
  induction l generalizing i0 with
  | nil => exact List.Pairwise.nil
  | cons f fs ih =>
    refine List.Pairwise.cons ?_ (ih (i0 + 1))
    intro q hq
    have := mem_indexList_snd hq
    omega

theorem indexList_map_snd (l : List α) (i0 : ℕ) :
    (indexList l i0).map (fun x => x.2) = List.range' i0 l.length := by
  induction l generalizing i0 with
  | nil => rfl
  | cons f fs ih => simp [indexList, ih, List.range'_succ]

theorem mem_indexList_fst {l : List α} {i0 : ℕ} {p : α × ℕ}
    (h : p ∈ indexList l i0) : p.1 ∈ l := by
  induction l generalizing i0 with
  | nil => simp [indexList] at h
  | cons f fs ih =>
    simp only [indexList, List.mem_cons] at h
    rcases h with h | h
    · subst h; simp
    · simp [ih h]

theorem insertDesc_perm (x : α × ℕ) (l : List (α × ℕ)) :
    (insertDesc x l).Perm (x :: l) := by
  induction l with
  | nil => exact List.Perm.refl _
  | cons y ys ih =>
    unfold insertDesc
    by_cases hc : y.1 > x.1
    · rw [if_pos hc]
      exact (List.Perm.cons y ih).trans (List.Perm.swap x y ys)
    · rw [if_neg hc]

theorem sortDesc_perm (l : List (α × ℕ)) : (sortDesc l).Perm l := by
  induction l with
  | nil => exact List.Perm.refl _
  | cons x xs ih =>
    exact (insertDesc_perm x (sortDesc xs)).trans (List.Perm.cons x ih)

end ES

namespace ES

variable {α : Type} [LinearOrderedField α]

theorem insertDesc_pairwise {x : α × ℕ} {l : List (α × ℕ)}
    (hl : l.Pairwise (ranksBefore (α := α)))
    (hx : ∀ y ∈ l, x.2 < y.2) :
    (insertDesc x l).Pairwise (ranksBefore (α := α)) := by
  induction l with
  | nil => simp [insertDesc, List.Pairwise.nil]
  | cons y ys ih =>
    obtain ⟨hy, hys⟩ := List.pairwise_cons.mp hl
    unfold insertDesc
    by_cases hc : y.1 > x.1
    · rw [if_pos hc]
      refine List.pairwise_cons.mpr ⟨?_, ih hys ?_⟩
      · intro z hz
        have hz' := (insertDesc_perm x ys).mem_iff.mp hz
        rcases List.mem_cons.mp hz' with hz' | hz'
        · subst hz'; exact Or.inl hc
        · exact hy z hz'
      · intro z hz; exact hx z (List.mem_cons_of_mem y hz)
    · rw [if_neg hc]
      have hyx : y.1 ≤ x.1 := le_of_not_lt hc
      refine List.pairwise_cons.mpr ⟨?_, hl⟩
      intro z hz
      rcases List.mem_cons.mp hz with hz' | hz'
      · rw [hz']
        rcases lt_or_eq_of_le hyx with hlt | heq
        · exact Or.inl hlt
        · exact Or.inr ⟨heq.symm, hx y (List.mem_cons_self y ys)⟩
      · rcases hy z hz' with hyz | hyz
        · exact Or.inl (lt_of_lt_of_le hyz hyx)
        · rcases lt_or_eq_of_le hyx with hlt | heq
          · exact Or.inl (lt_of_le_of_lt (le_of_eq hyz.1.symm) hlt)
          · exact Or.inr ⟨heq.symm.trans hyz.1,
              hx z (List.mem_cons_of_mem y hz')⟩

theorem sortDesc_pairwise {l : List (α × ℕ)}
    (h : l.Pairwise (fun a b => a.2 < b.2)) :
    (sortDesc l).Pairwise (ranksBefore (α := α)) := by
  induction l with
  | nil => exact List.Pairwise.nil
  | cons x xs ih =>
    obtain ⟨hx, hxs⟩ := List.pairwise_cons.mp h
    refine insertDesc_pairwise (ih hxs) ?_
    intro y hy
    exact hx y ((sortDesc_perm xs).mem_iff.mp hy)

/-- When every key in the list equals the inserted element's key, the
insertion puts the element at the head (Python stability: the earlier
element precedes later equal-key elements). -/
theorem insertDesc_all_keys_eq {x : α × ℕ} {l : List (α × ℕ)} {c : α}
    (hx : x.1 = c) (h : ∀ p ∈ l, p.1 = c) : insertDesc x l = x :: l := by
  cases l with
  | nil => rfl
  | cons y ys =>
    unfold insertDesc
    rw [if_neg]
    rw [h y (List.mem_cons_self y ys), hx]
    exact lt_irrefl c

theorem sortDesc_all_keys_eq {l : List (α × ℕ)} {c : α}
    (h : ∀ p ∈ l, p.1 = c) : sortDesc l = l := by
  induction l with
  | nil => rfl
  | cons x xs ih =>
    have hxs : ∀ p ∈ xs, p.1 = c := fun p hp => h p (List.mem_cons_of_mem x hp)
    unfold sortDesc
    rw [ih hxs]
    exact insertDesc_all_keys_eq (h x (List.mem_cons_self x xs)) hxs

/-- Soundness of `selectPop` when all indices are in range. -/
theorem selectPop_sound (off : List (List α)) (idxs : List ℕ)
    (h : ∀ i ∈ idxs, i < off.length) :
    ∃ sel, selectPop off idxs = some sel ∧ sel.length = idxs.length ∧
      (∀ m ∈ sel, m ∈ off) ∧
      ∀ (k xi : ℕ), idxs[k]? = some xi → sel[k]? = off[xi]? := by
  induction idxs with
  | nil => exact ⟨[], rfl, rfl, by simp, by simp⟩
  | cons i is ih =>
    obtain ⟨sel, hsel, hlen, hmem, hget⟩ :=
      ih (fun j hj => h j (List.mem_cons_of_mem i hj))
    have hi : i < off.length := h i (List.mem_cons_self i is)
    have hx : off[i]? = some (off.get ⟨i, hi⟩) := by
      rw [List.getElem?_eq_getElem hi]
      rfl
    refine ⟨off.get ⟨i, hi⟩ :: sel, ?_, by simp [hlen], ?_, ?_⟩
    case refine_2 =>
      intro m hm
      rcases List.mem_cons.mp hm with hm' | hm'
      · rw [hm']; exact List.get_mem off i hi
      · exact hmem m hm'
    · unfold selectPop at hsel ⊢
      simp only [List.mapM_cons, Option.bind_eq_bind, List.get?_eq_getElem?]
      rw [hx]
      simp only [Option.some_bind]
      rw [hsel]
      rfl
    · intro k xi hk
      cases k with
      | zero =>
        simp only [List.getElem?_cons_zero, Option.some.injEq] at hk ⊢
        rw [← hk, hx]
      | succ k =>
        simp only [List.getElem?_cons_succ] at hk ⊢
        exact hget k xi hk

end ES

namespace ES

variable {α : Type} [LinearOrderedField α]

theorem selectPop_range' (off : List (List α)) :
    ∀ (m i : ℕ), i + m ≤ off.length →
      selectPop off (List.range' i m) = some ((off.drop i).take m) := by
  intro m
  induction m with
  | zero => intro i _; rfl
  | succ m ih =>
    intro i hi
    have hilt : i < off.length := by omega
    rw [List.range'_succ]
    unfold selectPop at ih ⊢
    simp only [List.mapM_cons, Option.bind_eq_bind, List.get?_eq_getElem?]
    rw [List.getElem?_eq_getElem hilt]
    simp only [Option.some_bind]
    rw [ih (i + 1) (by omega)]
    simp only [Option.some_bind]
    rw [List.drop_eq_getElem_cons hilt, List.take_succ_cons]
    rfl

theorem truncationSelect_replicate (n mu : ℕ) (c : α) :
    truncationSelect (List.replicate n c) mu = (List.range n).take mu := by
  unfold truncationSelect
  have hall : ∀ p ∈ indexList (List.replicate n c) 0, p.1 = c :=
    fun p hp => List.eq_of_mem_replicate (mem_indexList_fst hp)
  rw [sortDesc_all_keys_eq hall, List.map_take, indexList_map_snd]
  simp [List.range_eq_range']

theorem selectPop_truncation_replicate (off : List (List α)) (mu : ℕ)
    (c : α) :
    selectPop off (truncationSelect (List.replicate off.length c) mu) =
      some (off.take mu) := by
  rw [truncationSelect_replicate, List.take_range, List.range_eq_range']
  rw [selectPop_range' off (mu ⊓ off.length) 0 (by omega)]
  by_cases hc : mu ≤ off.length
  · simp [Nat.min_eq_left hc]
  · have hlen : off.length ≤ mu := by omega
    simp [Nat.min_eq_right hlen, List.take_of_length_le hlen]

/-- C3.  Truncation selection sorts the `(fitness, original index)` pairs of
the λ offspring by fitness descending with exact-fitness ties broken by the
smaller original index (the behaviour of Python's stable sort), keeps the
first `mu`, and every kept pair ranks before every dropped pair; when every
offspring fitness is the same value, the selected next population is exactly
the first `mu` offspring in their original generation order. -/
theorem claim3_truncation_stable_descending (fits : List α) (mu : ℕ) :
    (sortDesc (indexList fits 0)).Perm (indexList fits 0) ∧
    (sortDesc (indexList fits 0)).Pairwise (ranksBefore (α := α)) ∧
    truncationSelect fits mu =
      ((sortDesc (indexList fits 0)).map (fun x => x.2)).take mu ∧
    (∀ p ∈ (sortDesc (indexList fits 0)).take mu,
      ∀ q ∈ (sortDesc (indexList fits 0)).drop mu, ranksBefore p q) ∧
    (∀ (off : List (List α)) (c : α),
      selectPop off (truncationSelect (List.replicate off.length c) mu) =
        some (off.take mu)) := by
  refine ⟨sortDesc_perm _, sortDesc_pairwise (indexList_pairwise fits 0),
    ?_, ?_, ?_⟩
  · unfold truncationSelect
    rw [List.map_take]
  · have hp := sortDesc_pairwise (α := α) (indexList_pairwise fits 0)
    have hsplit := List.take_append_drop mu (sortDesc (indexList fits 0))
    rw [← hsplit] at hp
    exact fun p hp' q hq' => (List.pairwise_append.mp hp).2.2 p hp' q hq'
  · exact fun off c => selectPop_truncation_replicate off mu c

/-- Witness for C3 at a concrete input: three offspring with all-equal
fitness, `mu = 2`: the first two offspring are selected. -/
theorem claim3_witness :
    selectPop [[(1:ℚ)], [2], [3]]
      (truncationSelect (List.replicate 3 (5:ℚ)) 2) = some [[1], [2]] :=
  (claim3_truncation_stable_descending ([] : List ℚ) 2).2.2.2.2
    [[(1:ℚ)], [2], [3]] 5

end ES

namespace ES

variable {α : Type} [LinearOrderedField α]

/-- Full characterisation of a successful generation step. -/
theorem esStep_eq_some {fitness : List α → α} {mu lam memSize : ℕ} {tau : α}
    {exp sqrt : α → α} {genNumber : ℕ} {pop : List (List α)} {evals : ℕ}
    {r : RNG α} {ps : List (List α) × Bool} {t : Telemetry α} {e : ℕ}
    {r' : RNG α}
    (h : esStep fitness mu lam memSize tau exp sqrt genNumber pop evals r =
      some (ps, t, e, r')) :
    ∃ og maxFit dv,
      makeOffspring (pop.map (fun m => fitness (m.take memSize))) pop memSize
        mu tau exp lam r = some og ∧
      listMaxPy (pop.map (fun m => fitness (m.take memSize))) = some maxFit ∧
      diversityLoop sqrt pop memSize (diversityPairs mu) 0 = some dv ∧
      t = ⟨mu, lam, tau, genNumber, evals + mu + lam, maxFit,
        (pop.map (fun m => fitness (m.take memSize))).sum / (mu : α), dv⟩ ∧
      e = evals + mu + lam ∧ r' = og.2 ∧
      ((pop.map (fun m => fitness (m.take memSize))).sum / (mu : α) >
          99 / 100 → ps = (pop, true)) ∧
      (¬ (pop.map (fun m => fitness (m.take memSize))).sum / (mu : α) >
          99 / 100 →
        ∃ np, selectPop og.1 (truncationSelect
          (og.1.map (fun m => fitness (m.take memSize))) mu) = some np ∧
          ps = (np, false)) := by
  unfold esStep at h
  simp only [Option.bind_eq_bind, Option.bind_eq_some] at h
  obtain ⟨og, hog, maxFit, hmax, dv, hdv, h⟩ := h
  refine ⟨og, maxFit, dv, hog, hmax, hdv, ?_⟩
  split at h
  case isTrue havg =>
    simp only [Option.some.injEq, Prod.mk.injEq] at h
    obtain ⟨hps, ht, he, hr⟩ := h
    exact ⟨ht.symm, he.symm, hr.symm, fun _ => hps.symm,
      fun hn => absurd havg hn⟩
  case isFalse havg =>
    simp only [Option.bind_eq_some, Option.some.injEq, Prod.mk.injEq] at h
    obtain ⟨np, hnp, hps, ht, he, hr⟩ := h
    exact ⟨ht.symm, he.symm, hr.symm, fun hy => absurd hy havg,
      fun _ => ⟨np, hnp, hps.symm⟩⟩

/-- Unfolding of one successful iteration of the generational loop. -/
theorem esLoop_succ_eq_some {fitness : List α → α} {mu lam memSize : ℕ}
    {tau : α} {exp sqrt : α → α} {n genNumber : ℕ} {pop : List (List α)}
    {evals : ℕ} {r : RNG α} {fp : List (List α)} {ts : List (Telemetry α)}
    {e : ℕ} {rf : RNG α}
    (h : esLoop fitness mu lam memSize tau exp sqrt (n + 1) genNumber pop
      evals r = some (fp, ts, e, rf)) :
    ∃ s, esStep fitness mu lam memSize tau exp sqrt genNumber pop evals r =
        some s ∧
      ((s.1.2 = true ∧ fp = s.1.1 ∧ ts = [s.2.1] ∧ e = s.2.2.1 ∧
          rf = s.2.2.2) ∨
        (s.1.2 = false ∧ ∃ fp' ts' e' rf',
          esLoop fitness mu lam memSize tau exp sqrt n (genNumber + 1) s.1.1
            s.2.2.1 s.2.2.2 = some (fp', ts', e', rf') ∧
          fp = fp' ∧ ts = s.2.1 :: ts' ∧ e = e' ∧ rf = rf')) := by
  unfold esLoop at h
  simp only [Option.bind_eq_bind, Option.bind_eq_some] at h
  obtain ⟨s, hs, h⟩ := h
  refine ⟨s, hs, ?_⟩
  by_cases hb : s.1.2
  · rw [if_pos hb] at h
    simp only [Option.some.injEq, Prod.mk.injEq] at h
    obtain ⟨h1, h2, h3, h4⟩ := h
    exact Or.inl ⟨hb, h1.symm, h2.symm, h3.symm, h4.symm⟩
  · rw [if_neg hb] at h
    simp only [Option.bind_eq_bind, Option.bind_eq_some,
      Option.some.injEq] at h
    obtain ⟨rest, hrec, heq⟩ := h
    obtain ⟨fp', ts', e', rf'⟩ := rest
    simp only [Prod.mk.injEq] at heq
    obtain ⟨h1, h2, h3, h4⟩ := heq
    exact Or.inr ⟨Bool.eq_false_iff.mpr hb, fp', ts', e', rf', hrec,
      h1.symm, h2.symm, h3.symm, h4.symm⟩

end ES

namespace ES

variable {α : Type} [LinearOrderedField α]

theorem esLoop_ts_length {fitness : List α → α} {mu lam memSize : ℕ}
    {tau : α} {exp sqrt : α → α} :
    ∀ (n genNumber : ℕ) (pop : List (List α)) (evals : ℕ) (r : RNG α)
      (fp : List (List α)) (ts : List (Telemetry α)) (e : ℕ) (rf : RNG α),
      esLoop fitness mu lam memSize tau exp sqrt n genNumber pop evals r =
        some (fp, ts, e, rf) → ts.length ≤ n := by
  intro n
  induction n with
  | zero =>
    intro genNumber pop evals r fp ts e rf h
    unfold esLoop at h
    simp only [Option.some.injEq, Prod.mk.injEq] at h
    rw [← h.2.1]
    simp
  | succ n ih =>
    intro genNumber pop evals r fp ts e rf h
    obtain ⟨s, hs, hcase⟩ := esLoop_succ_eq_some h
    rcases hcase with ⟨_, _, hts, _, _⟩ | ⟨_, fp', ts', e', rf', hrec, _,
      hts, _, _⟩
    · rw [hts]; simp
    · rw [hts]
      have := ih (genNumber + 1) s.1.1 s.2.2.1 s.2.2.2 fp' ts' e' rf' hrec
      simp only [List.length_cons]
      omega

theorem esLoop_evals {fitness : List α → α} {mu lam memSize : ℕ}
    {tau : α} {exp sqrt : α → α} :
    ∀ (n genNumber : ℕ) (pop : List (List α)) (evals : ℕ) (r : RNG α)
      (fp : List (List α)) (ts : List (Telemetry α)) (e : ℕ) (rf : RNG α),
      esLoop fitness mu lam memSize tau exp sqrt n genNumber pop evals r =
        some (fp, ts, e, rf) → e = evals + ts.length * (mu + lam) := by
  intro n
  induction n with
  | zero =>
    intro genNumber pop evals r fp ts e rf h
    unfold esLoop at h
    simp only [Option.some.injEq, Prod.mk.injEq] at h
    rw [← h.2.1, ← h.2.2.1]
    simp
  | succ n ih =>
    intro genNumber pop evals r fp ts e rf h
    obtain ⟨s, hs, hcase⟩ := esLoop_succ_eq_some h
    obtain ⟨⟨pp, bb⟩, tt, ee, rr⟩ := s
    obtain ⟨og, maxFit, dv, _, _, _, _, hee, _, _, _⟩ := esStep_eq_some hs
    rcases hcase with ⟨_, _, hts, he, _⟩ | ⟨_, fp', ts', e', rf', hrec, _,
      hts, he, _⟩
    · rw [hts, he]
      simp only [List.length_singleton]
      calc ee = evals + mu + lam := hee
        _ = evals + 1 * (mu + lam) := by ring
    · have hrec' := ih (genNumber + 1) pp ee rr fp' ts' e' rf' hrec
      rw [hts, he, List.length_cons]
      calc e' = ee + ts'.length * (mu + lam) := hrec'
        _ = (evals + mu + lam) + ts'.length * (mu + lam) := by rw [hee]
        _ = evals + (ts'.length + 1) * (mu + lam) := by ring

/-- C5.  If the mean fitness of the μ parents exceeds 0.99, the generation
step returns the unchanged parent population with the stop flag set (the
offspring of that round are discarded, never promoted), the loop then
returns that parent population after exactly that one telemetry line, and a
full run never emits more than `maxGens` telemetry lines, i.e. never
executes more than `maxGens` generations. -/
theorem claim5_early_stop_and_generation_bound (fitness : List α → α)
    (mu lam memSize : ℕ) (tau : α) (exp sqrt : α → α) :
    (∀ (genNumber : ℕ) (pop : List (List α)) (evals : ℕ) (r : RNG α)
        (ps : List (List α) × Bool) (t : Telemetry α) (e : ℕ) (r' : RNG α),
      esStep fitness mu lam memSize tau exp sqrt genNumber pop evals r =
        some (ps, t, e, r') →
      (pop.map (fun m => fitness (m.take memSize))).sum / (mu : α) >
        99 / 100 →
      ps = (pop, true)) ∧
    (∀ (n genNumber : ℕ) (pop : List (List α)) (evals : ℕ) (r : RNG α)
        (fp : List (List α)) (ts : List (Telemetry α)) (e : ℕ) (rf : RNG α),
      esLoop fitness mu lam memSize tau exp sqrt (n + 1) genNumber pop evals
        r = some (fp, ts, e, rf) →
      (pop.map (fun m => fitness (m.take memSize))).sum / (mu : α) >
        99 / 100 →
      fp = pop ∧ ts.length = 1) ∧
    (∀ (lo hi sigma : α) (maxGens : ℕ) (r : RNG α) (fp : List (List α))
        (ts : List (Telemetry α)) (e : ℕ) (rf : RNG α),
      evolution_strategy fitness mu lam memSize lo hi sigma tau maxGens exp
        sqrt r = some (fp, ts, e, rf) → ts.length ≤ maxGens) := by
  refine ⟨?_, ?_, ?_⟩
  · intro genNumber pop evals r ps t e r' h havg
    obtain ⟨og, maxFit, dv, _, _, _, _, _, _, hstop, _⟩ := esStep_eq_some h
    exact hstop havg
  · intro n genNumber pop evals r fp ts e rf h havg
    obtain ⟨s, hs, hcase⟩ := esLoop_succ_eq_some h
    obtain ⟨⟨pp, bb⟩, tt, ee, rr⟩ := s
    obtain ⟨og, maxFit, dv, _, _, _, _, _, _, hstop, _⟩ := esStep_eq_some hs
    have hps : (pp, bb) = (pop, true) := hstop havg
    simp only [Prod.mk.injEq] at hps
    rcases hcase with ⟨_, hfp, hts, _, _⟩ | ⟨hb, _⟩
    · exact ⟨by rw [hfp, hps.1], by rw [hts]; rfl⟩
    · exact absurd (by rw [← hps.2]; exact hb : (true : Bool) = false)
        (by simp)
  · intro lo hi sigma maxGens r fp ts e rf h
    unfold evolution_strategy at h
    exact esLoop_ts_length maxGens 1 _ 0 _ fp ts e rf h

/-- Witness for C5 at a concrete input: mean parent fitness `1 > 0.99`
forces the unchanged parent population to be returned with the stop flag. -/
theorem claim5_witness :
    (([[0, 1], [0, 1]] : List (List ℚ)), true) = ([[0, 1], [0, 1]], true) :=
  (claim5_early_stop_and_generation_bound (fun _ => (1:ℚ)) 2 1 1 1 id id).1
    1 [[0, 1], [0, 1]] 0 zeroRng (([[0, 1], [0, 1]], true))
    ⟨2, 1, 1, 1, 3, 1, 1, 0⟩ 3
    ⟨zeroRng.unif, zeroRng.norm, zeroRng.pair, 0, 2, 1⟩
    (by simp [esStep, makeOffspring, makeChild, tournamentSelect,
      RNG.sample2, mutateGenes, RNG.gauss, listMaxPy, diversityLoop,
      diversityPairs, distSq, zeroRng]; norm_num)
    (by norm_num)

/-- C6 counterexample: with constant fitness `1`, `mu = 2`, `lam = 1`,
`maxGens = 2`, the run early-stops during its first generation (exactly one
telemetry line; the parent population is returned unchanged), yet the final
cumulative evaluation count is `3 = mu + lam`: the offspring of the
terminating generation were evaluated before the termination check, so the
final partial generation adds `mu + lam`, not `mu` alone, and the count is
neither `0` (completed generations times `mu + lam` with zero completed
generations) nor `2 = mu`. -/
theorem claim6_evals_counterexample :
    esLoop (fun _ => (1:ℚ)) 2 1 1 1 id id 2 1 [[0, 1], [0, 1]] 0 zeroRng =
      some ([[0, 1], [0, 1]], [⟨2, 1, 1, 1, 3, 1, 1, 0⟩], 3,
        ⟨zeroRng.unif, zeroRng.norm, zeroRng.pair, 0, 2, 1⟩) ∧
    (3 : ℕ) ≠ 2 ∧ (3 : ℕ) ≠ 0 :=
  ⟨by simp [esLoop, esStep, makeOffspring, makeChild, tournamentSelect,
      RNG.sample2, mutateGenes, RNG.gauss, listMaxPy, diversityLoop,
      diversityPairs, distSq, zeroRng]; norm_num,
    by decide, by decide⟩

/-- C6 (amended).  The cumulative evaluation count starts at 0 and increases
by exactly `mu + lam` for every executed generation, including the final
generation when early termination occurs (the offspring are evaluated before
the termination check); each telemetry line reports the count after its
generation's `mu + lam` evaluations, and at return the count equals
(number of executed generations) × `(mu + lam)`. -/
theorem claim6_eval_count_amended (fitness : List α → α)
    (mu lam memSize : ℕ) (tau : α) (exp sqrt : α → α) :
    (∀ (genNumber : ℕ) (pop : List (List α)) (evals : ℕ) (r : RNG α)
        (ps : List (List α) × Bool) (t : Telemetry α) (e : ℕ) (r' : RNG α),
      esStep fitness mu lam memSize tau exp sqrt genNumber pop evals r =
        some (ps, t, e, r') → e = evals + (mu + lam) ∧ t.evals = e) ∧
    (∀ (lo hi sigma : α) (maxGens : ℕ) (r : RNG α) (fp : List (List α))
        (ts : List (Telemetry α)) (e : ℕ) (rf : RNG α),
      evolution_strategy fitness mu lam memSize lo hi sigma tau maxGens exp
        sqrt r = some (fp, ts, e, rf) → e = ts.length * (mu + lam)) := by
  constructor
  · intro genNumber pop evals r ps t e r' h
    obtain ⟨og, maxFit, dv, _, _, _, ht, he, _, _, _⟩ := esStep_eq_some h
    refine ⟨by rw [he]; ring, ?_⟩
    rw [ht, he]
  · intro lo hi sigma maxGens r fp ts e rf h
    unfold evolution_strategy at h
    have := esLoop_evals maxGens 1 _ 0 _ fp ts e rf h
    simpa using this

/-- Witness for C6 at a concrete input. -/
theorem claim6_witness : (3 : ℕ) = 0 + (2 + 1) ∧
    (⟨2, 1, 1, 1, 3, 1, 1, 0⟩ : Telemetry ℚ).evals = 3 :=
  (claim6_eval_count_amended (fun _ => (1:ℚ)) 2 1 1 1 id id).1
    1 [[0, 1], [0, 1]] 0 zeroRng (([[0, 1], [0, 1]], true))
    ⟨2, 1, 1, 1, 3, 1, 1, 0⟩ 3
    ⟨zeroRng.unif, zeroRng.norm, zeroRng.pair, 0, 2, 1⟩
    (by simp [esStep, makeOffspring, makeChild, tournamentSelect,
      RNG.sample2, mutateGenes, RNG.gauss, listMaxPy, diversityLoop,
      diversityPairs, distSq, zeroRng]; norm_num)

end ES

namespace ES

variable {α : Type} [LinearOrderedField α]

/-! ## Totality and size bookkeeping -/

theorem initGenes_fst_length (lo hi : α) (n : ℕ) (r : RNG α) :
    (initGenes lo hi n r).1.length = n := by
  induction n generalizing r with
  | zero => rfl
  | succ n ih => simp [initGenes, ih]

theorem init_population_length (popSize memSize : ℕ) (lo hi sigma : α)
    (r : RNG α) :
    (init_population popSize memSize lo hi sigma r).1.length = popSize := by
  induction popSize generalizing r with
  | zero => rfl
  | succ n ih => simp [init_population, ih]

theorem init_population_member_length (popSize memSize : ℕ)
    (lo hi sigma : α) (r : RNG α) :
    ∀ m ∈ (init_population popSize memSize lo hi sigma r).1,
      m.length = memSize + 1 := by
  induction popSize generalizing r with
  | zero => intro m hm; simp [init_population] at hm
  | succ n ih =>
    intro m hm
    simp only [init_population, List.mem_cons] at hm
    rcases hm with hm | hm
    · rw [hm]
      simp [initGenes_fst_length]
    · exact ih _ m hm

theorem makeChild_child_length {fits : List α} {pop : List (List α)}
    {memSize mu : ℕ} {tau : α} {exp : α → α} {r : RNG α} {child : List α}
    {r' : RNG α}
    (h : makeChild fits pop memSize mu tau exp r = some (child, r')) :
    child.length = memSize + 1 := by
  obtain ⟨pIdx, r1, parent, sigmaVal, _, _, _, hplen, hc, _⟩ :=
    makeChild_eq_some h
  rw [hc]
  simp [mutateGenes_fst_length, List.length_take,
    Nat.min_eq_left (Nat.le_of_lt hplen)]

theorem makeOffspring_eq_some {fits : List α} {pop : List (List α)}
    {memSize mu : ℕ} {tau : α} {exp : α → α} :
    ∀ {n : ℕ} {r : RNG α} {og : List (List α) × RNG α},
      makeOffspring fits pop memSize mu tau exp n r = some og →
      og.1.length = n ∧ ∀ m ∈ og.1, m.length = memSize + 1 := by
  intro n
  induction n with
  | zero =>
    intro r og h
    unfold makeOffspring at h
    simp only [Option.some.injEq] at h
    rw [← h]
    exact ⟨rfl, by simp⟩
  | succ n ih =>
    intro r og h
    unfold makeOffspring at h
    simp only [Option.bind_eq_bind, Option.bind_eq_some,
      Option.some.injEq] at h
    obtain ⟨cr, hcr, rest, hrest, hog⟩ := h
    obtain ⟨hlen, hmem⟩ := ih hrest
    rw [← hog]
    refine ⟨by simp [hlen], ?_⟩
    intro m hm
    rcases List.mem_cons.mp hm with hm' | hm'
    · rw [hm']
      obtain ⟨c, r₂⟩ := cr
      exact makeChild_child_length hcr
    · exact hmem m hm'

theorem sortDesc_length (l : List (α × ℕ)) :
    (sortDesc l).length = l.length :=
  (sortDesc_perm l).length_eq

theorem truncationSelect_length (fits : List α) (mu : ℕ) :
    (truncationSelect fits mu).length = mu ⊓ fits.length := by
  unfold truncationSelect
  simp [List.length_take, sortDesc_length, indexList_length]

theorem truncationSelect_mem_lt {fits : List α} {mu i : ℕ}
    (h : i ∈ truncationSelect fits mu) : i < fits.length := by
  unfold truncationSelect at h
  obtain ⟨p, hp, hpi⟩ := List.mem_map.mp h
  have hp' : p ∈ sortDesc (indexList fits 0) := List.mem_of_mem_take hp
  have hp'' : p ∈ indexList fits 0 := (sortDesc_perm _).subset hp'
  have := mem_indexList_snd hp''
  omega

theorem mem_diversityPairs {mu : ℕ} {pr : ℕ × ℕ} :
    pr ∈ diversityPairs mu ↔ pr.1 < pr.2 ∧ pr.2 < mu := by
  obtain ⟨i, j⟩ := pr
  unfold diversityPairs
  simp only [List.mem_flatMap, List.mem_map, List.mem_filter,
    List.mem_range, Prod.mk.injEq, decide_eq_true_eq]
  constructor
  · rintro ⟨a, ha, b, ⟨hb, hab⟩, rfl, rfl⟩
    exact ⟨hab, hb⟩
  · rintro ⟨hij, hj⟩
    exact ⟨i, lt_trans hij hj, j, ⟨hj, hij⟩, rfl, rfl⟩

theorem distSq_total {x y : List α} :
    ∀ {memSize : ℕ}, memSize ≤ x.length → memSize ≤ y.length →
      ∃ s, distSq x y memSize = some s := by
  intro memSize
  induction memSize with
  | zero => intro _ _; exact ⟨0, rfl⟩
  | succ k ih =>
    intro hx hy
    obtain ⟨s, hs⟩ := ih (by omega) (by omega)
    refine ⟨s + (x.get ⟨k, by omega⟩ - y.get ⟨k, by omega⟩) ^ 2, ?_⟩
    unfold distSq
    simp only [Option.bind_eq_bind, List.get?_eq_getElem?, hs,
      Option.some_bind]
    rw [List.getElem?_eq_getElem (by omega : k < x.length),
      List.getElem?_eq_getElem (by omega : k < y.length)]
    rfl

theorem diversityLoop_total (sqrt : α → α) {pop : List (List α)}
    {memSize mu : ℕ} (hlen : pop.length = mu)
    (hmem : ∀ m ∈ pop, memSize ≤ m.length) :
    ∀ (prs : List (ℕ × ℕ)), (∀ pr ∈ prs, pr.1 < mu ∧ pr.2 < mu) →
      ∀ (d : α), ∃ dv, diversityLoop sqrt pop memSize prs d = some dv := by
  intro prs
  induction prs with
  | nil => intro _ d; exact ⟨d, rfl⟩
  | cons ij rest ih =>
    intro hpr d
    obtain ⟨hi, hj⟩ := hpr ij (List.mem_cons_self ij rest)
    have hxi : pop[ij.1]? = some (pop.get ⟨ij.1, by omega⟩) :=
      List.getElem?_eq_getElem (by omega)
    have hxj : pop[ij.2]? = some (pop.get ⟨ij.2, by omega⟩) :=
      List.getElem?_eq_getElem (by omega)
    obtain ⟨s, hs⟩ := distSq_total
      (hmem _ (List.get_mem pop ij.1 (by omega)))
      (hmem _ (List.get_mem pop ij.2 (by omega)))
    obtain ⟨dv, hdv⟩ := ih (fun q hq => hpr q (List.mem_cons_of_mem ij hq))
      (if sqrt s > d then sqrt s else d)
    refine ⟨dv, ?_⟩
    unfold diversityLoop
    simp only [Option.bind_eq_bind, List.get?_eq_getElem?, hxi, hxj,
      Option.some_bind, hs]
    exact hdv

theorem listMaxPy_total {l : List α} (h : l ≠ []) :
    ∃ m, listMaxPy l = some m := by
  cases l with
  | nil => exact absurd rfl h
  | cons x xs => exact ⟨_, rfl⟩

end ES


namespace ES

variable {α : Type} [LinearOrderedField α]

theorem sample2_total {n : ℕ} (r : RNG α) (h2 : 2 ≤ n) :
    ∃ i j, r.sample2 n = some ((i, j), { r with p := r.p + 1 }) := by
  unfold RNG.sample2
  rw [if_neg (by omega)]
  exact ⟨_, _, rfl⟩

theorem tournamentSelect_total {fits : List α} {mu : ℕ} (r : RNG α)
    (h2 : 2 ≤ mu) (hlen : fits.length = mu) :
    ∃ w, tournamentSelect fits mu r =
      some (w, { r with p := r.p + 1 }) ∧ w < mu := by
  obtain ⟨i, j, hs⟩ := sample2_total r h2
  obtain ⟨_, _, hi, hj, _⟩ := sample2_eq_some hs
  have h0 : fits[i]? = some (fits.get ⟨i, by omega⟩) :=
    List.getElem?_eq_getElem (by omega)
  have h1 : fits[j]? = some (fits.get ⟨j, by omega⟩) :=
    List.getElem?_eq_getElem (by omega)
  refine ⟨if fits.get ⟨i, by omega⟩ < fits.get ⟨j, by omega⟩ then j else i,
    ?_, ?_⟩
  · unfold tournamentSelect
    simp only [Option.bind_eq_bind, hs, Option.some_bind,
      List.get?_eq_getElem?, h0, h1]
  · split <;> omega

theorem makeChild_total {fits : List α} {pop : List (List α)}
    {memSize mu : ℕ} {tau : α} {exp : α → α} (r : RNG α) (h2 : 2 ≤ mu)
    (hflen : fits.length = mu) (hplen : pop.length = mu)
    (hmem : ∀ m ∈ pop, m.length = memSize + 1) :
    ∃ c, makeChild fits pop memSize mu tau exp r = some c := by
  obtain ⟨w, hts, hw⟩ := tournamentSelect_total r h2 hflen
  have hwp : w < pop.length := by omega
  have hparent : pop[w]? = some (pop.get ⟨w, hwp⟩) :=
    List.getElem?_eq_getElem hwp
  have hparlen : (pop.get ⟨w, hwp⟩).length = memSize + 1 :=
    hmem _ (List.get_mem pop w hwp)
  have hsv : (pop.get ⟨w, hwp⟩)[memSize]? =
      some ((pop.get ⟨w, hwp⟩).get ⟨memSize, by omega⟩) :=
    List.getElem?_eq_getElem (by omega)
  rw [← Option.isSome_iff_exists]
  unfold makeChild
  simp only [Option.bind_eq_bind, hts, Option.some_bind,
    List.get?_eq_getElem?, hparent, hsv, Option.isSome_some]

theorem makeOffspring_total {fits : List α} {pop : List (List α)}
    {memSize mu : ℕ} {tau : α} {exp : α → α} (h2 : 2 ≤ mu)
    (hflen : fits.length = mu) (hplen : pop.length = mu)
    (hmem : ∀ m ∈ pop, m.length = memSize + 1) :
    ∀ (n : ℕ) (r : RNG α),
      ∃ og, makeOffspring fits pop memSize mu tau exp n r = some og := by
  intro n
  induction n with
  | zero => intro r; exact ⟨_, rfl⟩
  | succ n ih =>
    intro r
    obtain ⟨⟨c, r₂⟩, hc⟩ :=
      (makeChild_total r h2 hflen hplen hmem :
        ∃ c, makeChild fits pop memSize mu tau exp r = some c)
    obtain ⟨og, hog⟩ := ih r₂
    rw [← Option.isSome_iff_exists]
    unfold makeOffspring
    simp only [Option.bind_eq_bind, hc, Option.some_bind, hog,
      Option.some_bind, Option.isSome_some]

theorem esStep_total (fitness : List α → α) (mu lam memSize : ℕ) (tau : α)
    (exp sqrt : α → α) (genNumber : ℕ) (pop : List (List α)) (evals : ℕ)
    (r : RNG α) (h2 : 2 ≤ mu) (hml : mu ≤ lam) (hplen : pop.length = mu)
    (hmem : ∀ m ∈ pop, m.length = memSize + 1) :
    ∃ ps t e r',
      esStep fitness mu lam memSize tau exp sqrt genNumber pop evals r =
        some (ps, t, e, r') ∧
      ps.1.length = mu ∧ ∀ m ∈ ps.1, m.length = memSize + 1 := by
  have hflen : (pop.map (fun m => fitness (m.take memSize))).length = mu := by
    simp [hplen]
  obtain ⟨og, hog⟩ := (makeOffspring_total h2 hflen hplen hmem lam r :
    ∃ og, makeOffspring (pop.map (fun m => fitness (m.take memSize))) pop
      memSize mu tau exp lam r = some og)
  obtain ⟨hoglen, hogmem⟩ := makeOffspring_eq_some hog
  obtain ⟨maxFit, hmax⟩ := listMaxPy_total
    (l := pop.map (fun m => fitness (m.take memSize)))
    (by intro hnil; rw [hnil] at hflen; simp at hflen; omega)
  obtain ⟨dv, hdv⟩ := diversityLoop_total sqrt hplen
    (fun m hm => by rw [hmem m hm]; omega : ∀ m ∈ pop, memSize ≤ m.length)
    (diversityPairs mu)
    (fun pr hpr => by
      obtain ⟨ha, hb⟩ := mem_diversityPairs.mp hpr
      exact ⟨lt_trans ha hb, hb⟩) 0
  have hoffl : (og.1.map (fun m => fitness (m.take memSize))).length = lam :=
    by simp [hoglen]
  obtain ⟨np, hnp, hnplen, hnpmem, _⟩ := selectPop_sound og.1
    (truncationSelect (og.1.map (fun m => fitness (m.take memSize))) mu)
    (fun i hi => by
      have := truncationSelect_mem_lt hi
      omega)
  have hsome : ∃ out,
      esStep fitness mu lam memSize tau exp sqrt genNumber pop evals r =
        some out := by
    rw [← Option.isSome_iff_exists]
    unfold esStep
    simp only [Option.bind_eq_bind, hog, Option.some_bind, hmax, hdv]
    split
    · exact rfl
    · simp only [hnp, Option.some_bind, Option.isSome_some]
  obtain ⟨⟨ps, t, e, r'⟩, hstep⟩ := hsome
  obtain ⟨og', maxFit', dv', hog', _, _, _, _, _, hstop, hgo⟩ :=
    esStep_eq_some hstep
  have hogeq : og = og' := Option.some.inj (hog.symm.trans hog')
  by_cases havg : (pop.map (fun m => fitness (m.take memSize))).sum /
      (mu : α) > 99 / 100
  · refine ⟨ps, t, e, r', hstep, ?_, ?_⟩
    · rw [hstop havg]; exact hplen
    · rw [hstop havg]; exact hmem
  · obtain ⟨np', hnp', hps⟩ := hgo havg
    have hnpeq : np = np' := by
      rw [← hogeq] at hnp'
      exact Option.some.inj (hnp.symm.trans hnp')
    refine ⟨ps, t, e, r', hstep, ?_, ?_⟩
    · rw [hps]
      simp only
      rw [← hnpeq, hnplen, truncationSelect_length, hoffl]
      omega
    · rw [hps]
      simp only
      intro m hm
      rw [← hnpeq] at hm
      exact hogmem m (hnpmem m hm)

theorem esLoop_total {fitness : List α → α} {mu lam memSize : ℕ} {tau : α}
    {exp sqrt : α → α} (h2 : 2 ≤ mu) (hml : mu ≤ lam) :
    ∀ (n genNumber : ℕ) (pop : List (List α)) (evals : ℕ) (r : RNG α),
      pop.length = mu → (∀ m ∈ pop, m.length = memSize + 1) →
      ∃ out, esLoop fitness mu lam memSize tau exp sqrt n genNumber pop
        evals r = some out := by
  intro n
  induction n with
  | zero => intro genNumber pop evals r _ _; exact ⟨_, rfl⟩
  | succ n ih =>
    intro genNumber pop evals r hplen hmem
    obtain ⟨ps, t, e, r', hstep, hlen', hmem'⟩ :=
      esStep_total fitness mu lam memSize tau exp sqrt genNumber pop evals r
        h2 hml hplen hmem
    rw [← Option.isSome_iff_exists]
    unfold esLoop
    simp only [Option.bind_eq_bind, hstep, Option.some_bind]
    cases hb : ps.2 with
    | true => simp
    | false =>
      obtain ⟨out, hout⟩ := ih (genNumber + 1) ps.1 e r' hlen' hmem'
      simp [hout]

end ES

namespace ES

variable {α : Type} [LinearOrderedField α]

/-- C2 counterexample: with `mu = 2` parents but only `lam = 1` offspring,
the population right after truncation selection has 1 member, not `mu = 2`:
Python's slice `indexed[:mu]` silently keeps only `min(mu, lam)` offspring.
-/
theorem claim2_counterexample :
    esStep (fun _ => (0:ℚ)) 2 1 1 1 id id 1 [[0, 1], [0, 1]] 0 zeroRng =
      some (([[0, 0]], false), ⟨2, 1, 1, 1, 3, 0, 0, 0⟩, 3,
        ⟨zeroRng.unif, zeroRng.norm, zeroRng.pair, 0, 2, 1⟩) ∧
    ([[0, 0]] : List (List ℚ)).length = 1 ∧ (1 : ℕ) ≠ 2 :=
  ⟨by simp [esStep, makeOffspring, makeChild, tournamentSelect, RNG.sample2,
      mutateGenes, RNG.gauss, listMaxPy, diversityLoop, diversityPairs,
      distSq, selectPop, truncationSelect, sortDesc, insertDesc, indexList,
      List.mapM.loop, zeroRng]; norm_num,
    rfl, by decide⟩

/-- C2 (amended).  Provided `mu ≤ lam`, the population invariant holds: the
initial parent population has exactly `mu` members, and after every
generation step (in particular right after truncation selection) the carried
population again has exactly `mu` members; when `lam < mu`, truncation keeps
only `min(mu, lam)` members. -/
theorem claim2_population_size_amended (fitness : List α → α)
    (mu lam memSize : ℕ) (tau : α) (exp sqrt : α → α) :
    (∀ (lo hi sigma : α) (r : RNG α),
      (init_population mu memSize lo hi sigma r).1.length = mu) ∧
    (∀ (genNumber : ℕ) (pop : List (List α)) (evals : ℕ) (r : RNG α)
        (ps : List (List α) × Bool) (t : Telemetry α) (e : ℕ) (r' : RNG α),
      esStep fitness mu lam memSize tau exp sqrt genNumber pop evals r =
        some (ps, t, e, r') →
      pop.length = mu → mu ≤ lam → ps.1.length = mu) := by
  refine ⟨fun lo hi sigma r =>
    init_population_length mu memSize lo hi sigma r, ?_⟩
  intro genNumber pop evals r ps t e r' h hplen hml
  obtain ⟨og, maxFit, dv, hog, _, _, _, _, _, hstop, hgo⟩ := esStep_eq_some h
  obtain ⟨hoglen, _⟩ := makeOffspring_eq_some hog
  by_cases havg : (pop.map (fun m => fitness (m.take memSize))).sum /
      (mu : α) > 99 / 100
  · rw [hstop havg]; exact hplen
  · obtain ⟨np, hnp, hps⟩ := hgo havg
    obtain ⟨sel, hsel, hsellen, _, _⟩ := selectPop_sound og.1
      (truncationSelect (og.1.map (fun m => fitness (m.take memSize))) mu)
      (fun i hi => by
        have h1 := truncationSelect_mem_lt hi
        rw [List.length_map] at h1
        exact h1)
    have hnpsel : np = sel := Option.some.inj (hnp.symm.trans hsel)
    rw [hps]
    show np.length = mu
    rw [hnpsel, hsellen, truncationSelect_length, List.length_map, hoglen]
    exact Nat.min_eq_left hml

/-- Witness for C2 at a concrete input (`mu = lam = 2`). -/
theorem claim2_witness : ([[0, 0], [0, 0]] : List (List ℚ)).length = 2 :=
  (claim2_population_size_amended (fun _ => (0:ℚ)) 2 2 1 1 id id).2
    1 [[0, 1], [0, 1]] 0 zeroRng ([[0, 0], [0, 0]], false)
    ⟨2, 2, 1, 1, 4, 0, 0, 0⟩ 4
    ⟨zeroRng.unif, zeroRng.norm, zeroRng.pair, 0, 4, 2⟩
    (by simp [esStep, makeOffspring, makeChild, tournamentSelect,
      RNG.sample2, mutateGenes, RNG.gauss, listMaxPy, diversityLoop,
      diversityPairs, distSq, selectPop, truncationSelect, sortDesc,
      insertDesc, indexList, List.mapM.loop, zeroRng]; norm_num)
    rfl (by decide)

/-- C7 counterexample: `mu = 1` is a valid hyperparameter per the claim, but
`random.sample(range(1), 2)` raises `ValueError` inside the first
generation, so the engine fails (returns `none`) instead of returning
normally. -/
theorem claim7_counterexample :
    evolution_strategy (fun _ => (0:ℚ)) 1 1 1 0 1 1 1 1 id id zeroRng =
      none := by
  simp [evolution_strategy, init_population, initGenes, RNG.uniform, esLoop,
    esStep, makeOffspring, makeChild, tournamentSelect, RNG.sample2, zeroRng]

/-- C7 (amended).  For `mu ≥ 2` and `lam ≥ mu` no operation of the engine
fails: every tournament sample, population index, fitness average and
diversity computation succeeds and the engine returns normally, for every
gene count, gene range, sigma, tau, generation bound and RNG state.  (For
`mu = 1` the tournament sample raises; for `lam < mu` the shrunken
population makes a later generation raise an index error.) -/
theorem claim7_no_failure_amended (fitness : List α → α)
    (mu lam memSize : ℕ) (lo hi sigma tau : α) (maxGens : ℕ)
    (exp sqrt : α → α) (r : RNG α) (h2 : 2 ≤ mu) (hml : mu ≤ lam) :
    ∃ out, evolution_strategy fitness mu lam memSize lo hi sigma tau maxGens
      exp sqrt r = some out := by
  unfold evolution_strategy
  exact esLoop_total h2 hml maxGens 1 _ 0 _
    (init_population_length mu memSize lo hi sigma r)
    (init_population_member_length mu memSize lo hi sigma r)

/-- Witness for C7 at a concrete input. -/
theorem claim7_witness :
    ∃ out, evolution_strategy (fun _ => (0:ℚ)) 2 2 1 0 1 1 1 1 id id
      zeroRng = some out :=
  claim7_no_failure_amended (fun _ => (0:ℚ)) 2 2 1 0 1 1 1 1 id id zeroRng
    (by decide) (by decide)

end ES

namespace ES

variable {α : Type} [LinearOrderedField α]

/-- C8 failing input: the engine performs no hyperparameter validation.
With the malformed hyperparameter `max_gens = 0` it silently returns the
freshly initialised population — no configuration error is surfaced before
(or instead of) the generational loop. -/
theorem claim8_no_validation_failing_input :
    evolution_strategy (fun _ => (0:ℚ)) 2 1 1 0 1 1 1 0 id id zeroRng =
      some ([[0, 1], [0, 1]], [], 0,
        ⟨zeroRng.unif, zeroRng.norm, zeroRng.pair, 2, 0, 0⟩) := by
  simp [evolution_strategy, init_population, initGenes, RNG.uniform, esLoop,
    zeroRng]

/-- C10.  For equal initial RNG states (same seed) and equal
hyperparameters, two runs of the engine with the same deterministic fitness
evaluator produce identical telemetry sequences and identical final
populations: the embedding is a pure function of its inputs, with no other
state. -/
theorem claim10_determinism (fitness : List α → α) (mu lam memSize : ℕ)
    (lo hi sigma tau : α) (maxGens : ℕ) (exp sqrt : α → α) (r1 r2 : RNG α)
    (fp1 fp2 : List (List α)) (ts1 ts2 : List (Telemetry α)) (e1 e2 : ℕ)
    (rf1 rf2 : RNG α) (h : r1 = r2)
    (h1 : evolution_strategy fitness mu lam memSize lo hi sigma tau maxGens
      exp sqrt r1 = some (fp1, ts1, e1, rf1))
    (h2 : evolution_strategy fitness mu lam memSize lo hi sigma tau maxGens
      exp sqrt r2 = some (fp2, ts2, e2, rf2)) :
    ts1 = ts2 ∧ fp1 = fp2 := by
  subst h
  have := Option.some.inj (h1.symm.trans h2)
  simp only [Prod.mk.injEq] at this
  exact ⟨this.2.1, this.1⟩

/-- Witness for C10 at a concrete input: two runs from the same seed. -/
theorem claim10_witness :
    ([] : List (Telemetry ℚ)) = [] ∧
    ([[0, 1], [0, 1]] : List (List ℚ)) = [[0, 1], [0, 1]] :=
  claim10_determinism (fun _ => (0:ℚ)) 2 1 1 0 1 1 1 0 id id zeroRng zeroRng
    [[0, 1], [0, 1]] [[0, 1], [0, 1]] [] [] 0 0
    ⟨zeroRng.unif, zeroRng.norm, zeroRng.pair, 2, 0, 0⟩
    ⟨zeroRng.unif, zeroRng.norm, zeroRng.pair, 2, 0, 0⟩ rfl
    (by simp [evolution_strategy, init_population, initGenes, RNG.uniform,
      esLoop, zeroRng])
    (by simp [evolution_strategy, init_population, initGenes, RNG.uniform,
      esLoop, zeroRng])

end ES

namespace ES

variable {α : Type} [LinearOrderedField α]

/-! ## Diversity: maximum pairwise distance over gene vectors -/

theorem distSq_eq_some_spec {x y : List α} :
    ∀ {memSize : ℕ} {s : α}, distSq x y memSize = some s →
      0 ≤ s ∧ (s = 0 ↔ ∀ k, k < memSize → x[k]? = y[k]?) := by
  intro memSize
  induction memSize with
  | zero =>
    intro s h
    unfold distSq at h
    simp only [Option.some.injEq] at h
    subst h
    exact ⟨le_refl 0, by simp⟩
  | succ k ih =>
    intro s h
    unfold distSq at h
    simp only [Option.bind_eq_bind, Option.bind_eq_some,
      List.get?_eq_getElem?, Option.some.injEq] at h
    obtain ⟨s', hs', xk, hxk, yk, hyk, hsum⟩ := h
    obtain ⟨hnn, hiff⟩ := ih hs'
    have hsq : (0 : α) ≤ (xk - yk) ^ 2 := sq_nonneg _
    constructor
    · rw [← hsum]; positivity
    · rw [← hsum]
      constructor
      · intro h0
        obtain ⟨h1, h2⟩ := (add_eq_zero_iff_of_nonneg hnn hsq).mp h0
        intro k' hk'
        rcases Nat.lt_succ_iff_lt_or_eq.mp hk' with hk' | hk'
        · exact hiff.mp h1 k' hk'
        · subst hk'
          have : xk = yk := by
            have := pow_eq_zero_iff (n := 2) (by omega) |>.mp h2
            linarith [sub_eq_zero.mp this]
          rw [hxk, hyk, this]
      · intro hall
        have h1 : s' = 0 := hiff.mpr (fun k' hk' => hall k' (by omega))
        have hxy : xk = yk := by
          have := hall k (by omega)
          rw [hxk, hyk] at this
          exact Option.some.inj this
        rw [h1, hxy]
        simp
    
theorem diversityLoop_spec {sqrt : α → α} {pop : List (List α)}
    {memSize : ℕ} :
    ∀ (prs : List (ℕ × ℕ)) (d0 dv : α),
      diversityLoop sqrt pop memSize prs d0 = some dv →
      d0 ≤ dv ∧
      (dv = d0 ∨ ∃ ij ∈ prs, ∃ xi xj s, pop[ij.1]? = some xi ∧
        pop[ij.2]? = some xj ∧ distSq xi xj memSize = some s ∧
        dv = sqrt s) ∧
      (∀ ij ∈ prs, ∀ xi xj s, pop[ij.1]? = some xi →
        pop[ij.2]? = some xj → distSq xi xj memSize = some s →
        sqrt s ≤ dv) := by
  intro prs
  induction prs with
  | nil =>
    intro d0 dv h
    unfold diversityLoop at h
    simp only [Option.some.injEq] at h
    subst h
    exact ⟨le_refl _, Or.inl rfl, by simp⟩
  | cons ij rest ih =>
    intro d0 dv h
    unfold diversityLoop at h
    simp only [Option.bind_eq_bind, Option.bind_eq_some,
      List.get?_eq_getElem?] at h
    obtain ⟨xi, hxi, xj, hxj, s, hs, hrec⟩ := h
    obtain ⟨hle, hatt, hbd⟩ := ih _ dv hrec
    have hd0 : d0 ≤ (if sqrt s > d0 then sqrt s else d0) := by
      split
      · linarith
      · exact le_refl d0
    have hss : sqrt s ≤ (if sqrt s > d0 then sqrt s else d0) := by
      split
      · exact le_refl _
      · linarith [le_of_not_lt (by assumption : ¬ sqrt s > d0)]
    refine ⟨le_trans hd0 hle, ?_, ?_⟩
    · rcases hatt with hatt | ⟨ij', hij', xi', xj', s', h1, h2, h3, h4⟩
      · by_cases hc : sqrt s > d0
        · rw [if_pos hc] at hatt
          exact Or.inr ⟨ij, List.mem_cons_self ij rest, xi, xj, s, hxi,
            hxj, hs, hatt⟩
        · rw [if_neg hc] at hatt
          exact Or.inl hatt
      · exact Or.inr ⟨ij', List.mem_cons_of_mem ij hij', xi', xj', s',
          h1, h2, h3, h4⟩
    · intro ij' hij' xi' xj' s' h1 h2 h3
      rcases List.mem_cons.mp hij' with hij' | hij'
      · subst hij'
        have hxi' : xi' = xi := Option.some.inj (h1.symm.trans hxi)
        have hxj' : xj' = xj := Option.some.inj (h2.symm.trans hxj)
        have hs' : s' = s := by
          rw [hxi', hxj'] at h3
          exact Option.some.inj (h3.symm.trans hs)
        rw [hs']
        exact le_trans hss hle
      · exact hbd ij' hij' xi' xj' s' h1 h2 h3

end ES

namespace ES

variable {α : Type} [LinearOrderedField α]

/-- C9.  The diversity computed over the μ parents is the running maximum
(started at 0) of the Euclidean distances over gene vectors only (the first
`memSize` entries; sigma excluded) over all distinct index pairs
`i < j < mu`: it bounds every pairwise distance, is attained by some pair
unless it is 0, is nonnegative, and vanishes exactly when all parents have
identical gene vectors; it is exactly the value reported in the generation's
telemetry.  `sqrt` is `math.sqrt`, assumed nonnegative on nonnegatives and
vanishing exactly at 0. -/
theorem claim9_diversity_max_pairwise_distance (sqrt : α → α)
    (pop : List (List α)) (memSize mu : ℕ) (hplen : pop.length = mu)
    (hmem : ∀ m ∈ pop, memSize ≤ m.length)
    (hs0 : ∀ x : α, 0 ≤ x → 0 ≤ sqrt x)
    (hsz : ∀ x : α, 0 ≤ x → (sqrt x = 0 ↔ x = 0)) :
    ∃ dv, diversityLoop sqrt pop memSize (diversityPairs mu) 0 = some dv ∧
      0 ≤ dv ∧
      (∀ (i j : ℕ) (xi xj : List α) (s : α), i < j → j < mu →
        pop[i]? = some xi → pop[j]? = some xj →
        distSq xi xj memSize = some s → sqrt s ≤ dv) ∧
      (dv = 0 ∨ ∃ (i j : ℕ) (xi xj : List α) (s : α), i < j ∧ j < mu ∧
        pop[i]? = some xi ∧ pop[j]? = some xj ∧
        distSq xi xj memSize = some s ∧ dv = sqrt s) ∧
      (dv = 0 ↔ ∀ (i j : ℕ) (xi xj : List α), i < mu → j < mu →
        pop[i]? = some xi → pop[j]? = some xj →
        ∀ k, k < memSize → xi[k]? = xj[k]?) ∧
      (∀ (fitness : List α → α) (lam : ℕ) (tau : α) (exp : α → α)
        (genNumber evals : ℕ) (r : RNG α) (ps : List (List α) × Bool)
        (t : Telemetry α) (e : ℕ) (r' : RNG α),
        esStep fitness mu lam memSize tau exp sqrt genNumber pop evals r =
          some (ps, t, e, r') → t.diversity = dv) := by
  obtain ⟨dv, hdv⟩ := diversityLoop_total sqrt hplen hmem (diversityPairs mu)
    (fun pr hpr => by
      obtain ⟨ha, hb⟩ := mem_diversityPairs.mp hpr
      exact ⟨lt_trans ha hb, hb⟩) 0
  obtain ⟨hle, hatt, hbd⟩ := diversityLoop_spec _ _ _ hdv
  have hbound : ∀ (i j : ℕ) (xi xj : List α) (s : α), i < j → j < mu →
      pop[i]? = some xi → pop[j]? = some xj →
      distSq xi xj memSize = some s → sqrt s ≤ dv := by
    intro i j xi xj s hij hjmu hxi hxj hs
    exact hbd (i, j) (mem_diversityPairs.mpr ⟨hij, hjmu⟩) xi xj s hxi hxj hs
  have hkey : dv = 0 → ∀ (i j : ℕ) (xi xj : List α), i < j → j < mu →
      pop[i]? = some xi → pop[j]? = some xj →
      ∀ k, k < memSize → xi[k]? = xj[k]? := by
    intro h0 i j xi xj hij hjmu hxi hxj
    obtain ⟨s, hs⟩ := distSq_total (hmem xi (List.getElem?_mem hxi))
      (hmem xj (List.getElem?_mem hxj))
    obtain ⟨hsnn, hsiff⟩ := distSq_eq_some_spec hs
    have h1 : sqrt s ≤ 0 := h0 ▸ hbound i j xi xj s hij hjmu hxi hxj hs
    have h2 : sqrt s = 0 := le_antisymm h1 (hs0 s hsnn)
    have h3 : s = 0 := (hsz s hsnn).mp h2
    exact fun k hk => hsiff.mp h3 k hk
  refine ⟨dv, hdv, hle, hbound, ?_, ?_, ?_⟩
  · rcases hatt with h0 | ⟨ij, hij, xi, xj, s, hxi, hxj, hs, hdveq⟩
    · exact Or.inl h0
    · obtain ⟨ha, hb⟩ := mem_diversityPairs.mp hij
      exact Or.inr ⟨ij.1, ij.2, xi, xj, s, ha, hb, hxi, hxj, hs, hdveq⟩
  · constructor
    · intro h0 i j xi xj himu hjmu hxi hxj k hk
      rcases lt_trichotomy i j with hij | hij | hij
      · exact hkey h0 i j xi xj hij hjmu hxi hxj k hk
      · subst hij
        rw [Option.some.inj (hxi.symm.trans hxj)]
      · exact (hkey h0 j i xj xi hij himu hxj hxi k hk).symm
    · intro hall
      rcases hatt with h0 | ⟨ij, hij, xi, xj, s, hxi, hxj, hs, hdveq⟩
      · exact h0
      · obtain ⟨ha, hb⟩ := mem_diversityPairs.mp hij
        have hs0' : s = 0 := (distSq_eq_some_spec hs).2.mpr
          (fun k hk => hall ij.1 ij.2 xi xj (lt_trans ha hb) hb hxi hxj k hk)
        rw [hdveq, hs0']
        exact (hsz 0 (le_refl 0)).mpr rfl
  · intro fitness lam tau exp genNumber evals r ps t e r' h
    obtain ⟨og, maxFit, dv', _, _, hdv', ht, _, _, _, _⟩ := esStep_eq_some h
    have : dv' = dv := Option.some.inj (hdv'.symm.trans hdv)
    rw [ht, ← this]

/-- Witness for C9 at a concrete input (`sqrt` instantiated with the
identity on `ℚ`, which is nonnegative on nonnegatives and vanishes exactly
at 0). -/
theorem claim9_witness :
    ∃ dv, diversityLoop id [[(0:ℚ), 1], [0, 1]] 1 (diversityPairs 2) 0 =
        some dv ∧
      0 ≤ dv ∧
      (∀ (i j : ℕ) (xi xj : List ℚ) (s : ℚ), i < j → j < 2 →
        ([[(0:ℚ), 1], [0, 1]])[i]? = some xi →
        ([[(0:ℚ), 1], [0, 1]])[j]? = some xj →
        distSq xi xj 1 = some s → id s ≤ dv) ∧
      (dv = 0 ∨ ∃ (i j : ℕ) (xi xj : List ℚ) (s : ℚ), i < j ∧ j < 2 ∧
        ([[(0:ℚ), 1], [0, 1]])[i]? = some xi ∧
        ([[(0:ℚ), 1], [0, 1]])[j]? = some xj ∧
        distSq xi xj 1 = some s ∧ dv = id s) ∧
      (dv = 0 ↔ ∀ (i j : ℕ) (xi xj : List ℚ), i < 2 → j < 2 →
        ([[(0:ℚ), 1], [0, 1]])[i]? = some xi →
        ([[(0:ℚ), 1], [0, 1]])[j]? = some xj →
        ∀ k, k < 1 → xi[k]? = xj[k]?) ∧
      (∀ (fitness : List ℚ → ℚ) (lam : ℕ) (tau : ℚ) (exp : ℚ → ℚ)
        (genNumber evals : ℕ) (r : RNG ℚ) (ps : List (List ℚ) × Bool)
        (t : Telemetry ℚ) (e : ℕ) (r' : RNG ℚ),
        esStep fitness 2 lam 1 tau exp id genNumber [[(0:ℚ), 1], [0, 1]]
          evals r = some (ps, t, e, r') → t.diversity = dv) :=
  claim9_diversity_max_pairwise_distance id [[(0:ℚ), 1], [0, 1]] 1 2 rfl
    (by
      intro m hm
      rcases List.mem_cons.mp hm with h | h
      · rw [h]; decide
      · rw [List.mem_singleton.mp h]; decide)
    (fun x hx => hx) (fun x hx => Iff.rfl)

end ES
